import Mathlib

/-!
Verification of the sorting algorithms of `src/algorithm/sorting.ts`.

A random-access range is shallowly embedded as the list `l : List α` of the
values stored in the underlying container, together with zero-based indices:
an iterator is its index, `it.value` is the stored value at that index,
`it.advance(n)` is `it + n`, `it.next()` is `it + 1`, `it.equals(last)` for a
cursor walking forward from `first ≤ last` is `it = last`, and
`distance(first, last)` of a valid range is `last - first`.  Mutation is
state passing: each algorithm takes the backing list and returns the new one.
-/

namespace Sorting

variable {α : Type} [Inhabited α]

/-- `it.value`: the value stored at index `i`.  An out-of-range read returns
the default value (the source never reads out of range on valid inputs). -/
def getv (l : List α) (i : Nat) : α := l.getD i default

/-- `iter_swap(x, y)` from `algorithm/modifiers.ts`: exchanges the values at
two positions, totalized to the identity when a position is out of range. -/
def iter_swap (l : List α) (i j : Nat) : List α :=
  if i < l.length ∧ j < l.length then (l.set i (getv l j)).set j (getv l i) else l

/-- The values stored at the positions of the range `[lo, hi)`. -/
def rangeVals (l : List α) (lo hi : Nat) : List α :=
  (List.range' lo (hi - lo)).map (getv l)

/-- The range `[first, last)` is non-decreasing under `comp`: for every
adjacent pair, `comp(later, earlier)` is false. -/
def sortedRange (comp : α → α → Bool) (l : List α) (first last : Nat) : Prop :=
  ∀ k, first ≤ k → k + 1 < last → comp (getv l (k + 1)) (getv l k) = false

/-- The strict-weak-ordering assumptions the spec places on `comp`:
asymmetry, transitivity, and the splitting property
`comp x z → comp x y ∨ comp y z` (for an asymmetric transitive relation this
is exactly transitivity of incomparability, so the three conjuncts together
say that `comp` is a strict weak ordering). -/
def IsSWO (comp : α → α → Bool) : Prop :=
  (∀ x y, comp x y = true → comp y x = false) ∧
  (∀ x y z, comp x y = true → comp y z = true → comp x z = true) ∧
  (∀ x y z, comp x z = true → comp x y = true ∨ comp y z = true)

/-- The default comparator `less` of `functional/comparators.ts`, at element
type `Nat`. -/
def less (x y : Nat) : Bool := decide (x < y)

/-- The partition scan of `sort` (`for (let j = 1; j < size; ++j) ...`):
`i` is the next unfilled low slot and `j` the scan position, both offsets
from `first`; `pivot` is the pivot value captured before partitioning.
Returns the partitioned storage and the final value of `i`. -/
def partitionLoop (comp : α → α → Bool) (pivot : α) (first size : Nat)
    (l : List α) (i j : Nat) : List α × Nat :=
  if j < size then
    if comp (getv l (first + j)) pivot then
      partitionLoop comp pivot first size (iter_swap l (first + j) (first + i)) (i + 1) (j + 1)
    else
      partitionLoop comp pivot first size l i (j + 1)
  else (l, i)
termination_by size - j

/-- The slot counter of the partition scan stays between its initial value
and `size`. -/
theorem partitionLoop_le (comp : α → α → Bool) (pivot : α) (first size : Nat) :
    ∀ (fuel : Nat) (l : List α) (i j : Nat), size - j ≤ fuel → i ≤ j → j ≤ size →
      i ≤ (partitionLoop comp pivot first size l i j).2 ∧
      (partitionLoop comp pivot first size l i j).2 ≤ size := by
  intro fuel
  induction fuel with
  | zero =>
    intro l i j h1 h2 h3
    rw [partitionLoop]
    have hj : ¬ j < size := by omega
    simp [hj]
    omega
  | succ n ih =>
    intro l i j h1 h2 h3
    rw [partitionLoop]
    by_cases hj : j < size
    · cases hc : comp (getv l (first + j)) pivot with
      | true =>
        simp [hj, hc]
        have := ih (iter_swap l (first + j) (first + i)) (i + 1) (j + 1)
          (by omega) (by omega) (by omega)
        omega
      | false =>
        simp [hj, hc]
        have := ih l i (j + 1) (by omega) (by omega) (by omega)
        omega
    · simp [hj]
      omega

/-- Lines 50-54 of `sort`: capture the midpoint position and, when it is not
already the first position, swap the pivot into the first slot. -/
def pivotPrep (l : List α) (first last : Nat) : List α :=
  if first + (last - first) / 2 ≠ first then iter_swap l first (first + (last - first) / 2)
  else l

/-- `sort(first, last, comp)`: the recursive partition-exchange sort of
`[first, last)` (src/algorithm/sorting.ts, lines 40-70).  The pivot is the
value at the structural midpoint, swapped into the first slot before the
partition scan, then swapped to the partition boundary, and the two strict
subranges are sorted recursively. -/
def sort (comp : α → α → Bool) (l : List α) (first last : Nat) : List α :=
  if h0 : last ≤ first then l
  else
    sort comp
      (sort comp
        (iter_swap
          (partitionLoop comp (getv l (first + (last - first) / 2)) first (last - first)
            (pivotPrep l first last) 1 1).1
          first
          (first + ((partitionLoop comp (getv l (first + (last - first) / 2)) first
            (last - first) (pivotPrep l first last) 1 1).2 - 1)))
        first
        (first + ((partitionLoop comp (getv l (first + (last - first) / 2)) first
          (last - first) (pivotPrep l first last) 1 1).2 - 1)))
      (first + (partitionLoop comp (getv l (first + (last - first) / 2)) first (last - first)
        (pivotPrep l first last) 1 1).2)
      last
termination_by last - first
decreasing_by
  · have h := partitionLoop_le comp (getv l (first + (last - first) / 2)) first (last - first)
      (last - first) (pivotPrep l first last) 1 1 (by omega) (by omega) (by omega)
    omega
  · have h := partitionLoop_le comp (getv l (first + (last - first) / 2)) first (last - first)
      (last - first) (pivotPrep l first last) 1 1 (by omega) (by omega) (by omega)
    omega

example : sort less [5, 3, 8, 1, 9, 2] 0 6 = [1, 2, 3, 5, 8, 9] := by
  simp [sort, partitionLoop, pivotPrep, iter_swap, getv, less]

/-- The derived comparator `ramda` that `stable_sort` builds from `comp`
(line 85-88): `(x, y) => comp(x, y) && !comp(y, x)`. -/
def ramda (comp : α → α → Bool) (x y : α) : Bool := comp x y && !comp y x

/-- `stable_sort(first, last, comp)` (lines 79-90): delegates to `sort` with
the derived comparator. -/
def stable_sort (comp : α → α → Bool) (l : List α) (first last : Nat) : List α :=
  sort (ramda comp) l first last

/-- The inner scan of `partial_sort` (lines 110-112): starting from the
current minimum position `min`, walk `j` up to `last` and move `min` to any
position whose value compares less. -/
def minLoop (comp : α → α → Bool) (l : List α) (last : Nat) (j min : Nat) : Nat :=
  if j < last then
    if comp (getv l j) (getv l min) then minLoop comp l last (j + 1) j
    else minLoop comp l last (j + 1) min
  else min
termination_by last - j

/-- The outer loop of `partial_sort` (lines 106-116): for each position `i`
from `first` up to `middle`, select the minimum of `[i, last)` and swap it
into `i` when it is not already there. -/
def psLoop (comp : α → α → Bool) (middle last : Nat) (l : List α) (i : Nat) : List α :=
  if i < middle then
    psLoop comp middle last
      (if i ≠ minLoop comp l last (i + 1) i then iter_swap l i (minLoop comp l last (i + 1) i)
       else l) (i + 1)
  else l
termination_by middle - i

/-- `partial_sort(first, middle, last, comp)` (lines 100-117). -/
def partial_sort (comp : α → α → Bool) (l : List α) (first middle last : Nat) : List α :=
  psLoop comp middle last l first

/-- `copy(first, last, output)` from `algorithm/modifiers.ts`, restricted to
the use in `partial_sort_copy`: write the values of `src` at `[sfirst, slast)`
through the output iterator starting at `dfirst`, returning the written store
and the advanced output position. -/
def copyRange (src : List α) (sfirst slast : Nat) (dst : List α) (dfirst : Nat) :
    List α × Nat :=
  if sfirst < slast then
    copyRange src (sfirst + 1) slast (dst.set dfirst (getv src sfirst)) (dfirst + 1)
  else (dst, dfirst)
termination_by slast - sfirst

/-- `partial_sort_copy(first, last, output_first, output_last, comp)`
(lines 130-151).  The input range is `[first, last)` of the store `l`, the
output range `[ofirst, olast)` of the store `out`.  The source reads the
input range into a scratch `Vector`, sorts the vector with `sort`, and writes
through the output iterators only; it performs no write through the input
iterators, so the input store passes through unchanged as the first component
of the returned state. -/
def partial_sort_copy (comp : α → α → Bool) (l : List α) (first last : Nat)
    (out : List α) (ofirst olast : Nat) : List α × List α × Nat :=
  (l,
    if last - first > olast - ofirst then
      copyRange (sort comp (rangeVals l first last) 0 (rangeVals l first last).length) 0
        (olast - ofirst) out ofirst
    else
      copyRange (sort comp (rangeVals l first last) 0 (rangeVals l first last).length) 0
        (sort comp (rangeVals l first last) 0 (rangeVals l first last).length).length
        out ofirst)

/-- The inner counting loop of `nth_element` (lines 170-175): scan `j` over
`[first, last)` skipping `i`, increment `count` whenever
`comp(i.value, j.value)` holds, and break — returning the incremented count —
as soon as `count` exceeds `n`. -/
def countJ (comp : α → α → Bool) (l : List α) (last i n : Nat) (j count : Nat) : Nat :=
  if j < last then
    if i = j then countJ comp l last i n (j + 1) count
    else if comp (getv l i) (getv l j) then
      if count + 1 > n then count + 1
      else countJ comp l last i n (j + 1) (count + 1)
    else countJ comp l last i n (j + 1) count
  else count
termination_by last - j

/-- The number of positions `j ≠ i` in `[first, last)` whose value compares
greater than the value at `i`, i.e. with `comp(i.value, j.value)` true: the
quantity the counting loop of `nth_element` measures. -/
def totalGreater (comp : α → α → Bool) (l : List α) (first last i : Nat) : Nat :=
  (List.range' first (last - first)).countP
    (fun j => !decide (i = j) && comp (getv l i) (getv l j))

/-- The outer candidate loop of `nth_element` (lines 168-182): the first
position `i` whose count equals `n` is swapped with `nth` and the algorithm
returns; if no candidate matches, the store is returned unchanged. -/
def nthLoop (comp : α → α → Bool) (l : List α) (first last n nth : Nat) (i : Nat) :
    List α :=
  if i < last then
    if countJ comp l last i n first 0 = n then iter_swap l nth i
    else nthLoop comp l first last n nth (i + 1)
  else l
termination_by last - i

/-- `nth_element(first, nth, last, comp)` (lines 161-183), with
`n = distance(first, nth)`. -/
def nth_element (comp : α → α → Bool) (l : List α) (first nth last : Nat) : List α :=
  nthLoop comp l first last (nth - first) nth first

/-- The loop of `is_sorted_until` (lines 224-228): `next` walks from
`first + 1`, `f` trails one position behind, and the first `next` with
`comp(next.value, f.value)` is returned, or `last` when the walk completes. -/
def isuLoop (comp : α → α → Bool) (l : List α) (last : Nat) (f next : Nat) : Nat :=
  if next < last then
    if comp (getv l next) (getv l f) then next
    else isuLoop comp l last (f + 1) (next + 1)
  else last
termination_by last - next

/-- `is_sorted_until(first, last, comp)` (lines 215-231). -/
def is_sorted_until (comp : α → α → Bool) (l : List α) (first last : Nat) : Nat :=
  if first = last then last
  else isuLoop comp l last first (first + 1)

/-- `is_sorted(first, last, comp)` (lines 197-204): true iff
`is_sorted_until` returns exactly `last`. -/
def is_sorted (comp : α → α → Bool) (l : List α) (first last : Nat) : Bool :=
  decide (is_sorted_until comp l first last = last)

example : nth_element less [5, 3, 8, 1, 9, 2] 0 2 6 = [8, 3, 5, 1, 9, 2] := by
  simp [nth_element, nthLoop, countJ, iter_swap, getv, less]

example : stable_sort (fun x y : Nat => decide (x / 10 < y / 10)) [10, 11] 0 2 = [11, 10] := by
  simp [stable_sort, ramda, sort, partitionLoop, pivotPrep, iter_swap, getv]

example : partial_sort less [5, 3, 8, 1, 9, 2] 0 3 6 = [1, 2, 3, 5, 9, 8] := by
  simp [partial_sort, psLoop, minLoop, iter_swap, getv, less]

example : is_sorted_until less [1, 3, 2, 4] 0 4 = 2 := by
  simp [is_sorted_until, isuLoop, getv, less]

/-! ### Pointwise facts about `getv`, `List.set` and `iter_swap` -/

theorem getv_eq_getElem (l : List α) (i : Nat) (h : i < l.length) : getv l i = l[i] := by
  simp [getv, List.getD_eq_getElem?_getD, List.getElem?_eq_getElem h]

theorem getv_set_self (l : List α) (i : Nat) (v : α) (h : i < l.length) :
    getv (l.set i v) i = v := by
  simp [getv, List.getD_eq_getElem?_getD, List.getElem?_set_self h]

theorem getv_set_ne (l : List α) (i k : Nat) (v : α) (h : i ≠ k) :
    getv (l.set i v) k = getv l k := by
  simp [getv, List.getD_eq_getElem?_getD, List.getElem?_set_ne h]

theorem length_iter_swap (l : List α) (i j : Nat) : (iter_swap l i j).length = l.length := by
  unfold iter_swap
  by_cases h : i < l.length ∧ j < l.length
  · rw [if_pos h]; simp
  · rw [if_neg h]

theorem getv_iter_swap_fst (l : List α) (i j : Nat) (hi : i < l.length) (hj : j < l.length) :
    getv (iter_swap l i j) i = getv l j := by
  unfold iter_swap
  rw [if_pos ⟨hi, hj⟩]
  by_cases hij : j = i
  · subst hij
    rw [getv_set_self _ _ _ (by simpa using hi)]
  · rw [getv_set_ne _ _ _ _ hij, getv_set_self _ _ _ hi]

theorem getv_iter_swap_snd (l : List α) (i j : Nat) (hi : i < l.length) (hj : j < l.length) :
    getv (iter_swap l i j) j = getv l i := by
  unfold iter_swap
  rw [if_pos ⟨hi, hj⟩]
  rw [getv_set_self _ _ _ (by simpa using hj)]

theorem getv_iter_swap_other (l : List α) (i j k : Nat) (h1 : k ≠ i) (h2 : k ≠ j) :
    getv (iter_swap l i j) k = getv l k := by
  unfold iter_swap
  by_cases h : i < l.length ∧ j < l.length
  · rw [if_pos h, getv_set_ne _ _ _ _ (fun e => h2 e.symm),
      getv_set_ne _ _ _ _ (fun e => h1 e.symm)]
  · rw [if_neg h]

theorem iter_swap_self (l : List α) (i : Nat) : iter_swap l i i = l := by
  unfold iter_swap
  by_cases h : i < l.length
  · rw [if_pos ⟨h, h⟩]
    apply List.ext_getElem (by simp)
    intro n h1 h2
    rw [List.getElem_set, List.getElem_set]
    by_cases hn : i = n
    · subst hn
      simp [getv_eq_getElem _ _ h]
    · simp [hn]
  · rw [if_neg (by tauto)]

theorem iter_swap_comm (l : List α) (i j : Nat) : iter_swap l i j = iter_swap l j i := by
  by_cases hij : i = j
  · subst hij; rfl
  · unfold iter_swap
    by_cases h : i < l.length ∧ j < l.length
    · rw [if_pos h, if_pos ⟨h.2, h.1⟩, List.set_comm _ _ _ hij]
    · rw [if_neg h, if_neg (by tauto)]

/-! ### The values of a subrange: `rangeVals` -/

theorem length_rangeVals (l : List α) (lo hi : Nat) : (rangeVals l lo hi).length = hi - lo := by
  simp [rangeVals]

theorem rangeVals_empty (l : List α) (lo hi : Nat) (h : hi ≤ lo) : rangeVals l lo hi = [] := by
  simp [rangeVals, Nat.sub_eq_zero_of_le h]

theorem rangeVals_split (l : List α) (lo mid hi : Nat) (h1 : lo ≤ mid) (h2 : mid ≤ hi) :
    rangeVals l lo hi = rangeVals l lo mid ++ rangeVals l mid hi := by
  unfold rangeVals
  rw [← List.map_append]
  congr 1
  have h := List.range'_append lo (mid - lo) (hi - mid) 1
  rw [show lo + 1 * (mid - lo) = mid by omega] at h
  rw [show hi - lo = (hi - mid) + (mid - lo) by omega, ← h]

theorem rangeVals_singleton (l : List α) (k : Nat) : rangeVals l k (k + 1) = [getv l k] := by
  simp [rangeVals]

theorem rangeVals_congr (l l' : List α) (lo hi : Nat)
    (h : ∀ k, lo ≤ k → k < hi → getv l k = getv l' k) :
    rangeVals l lo hi = rangeVals l' lo hi := by
  unfold rangeVals
  apply List.map_congr_left
  intro a ha
  rw [List.mem_range'_1] at ha
  exact h a ha.1 (by omega)

theorem mem_rangeVals (l : List α) (lo hi k : Nat) (h1 : lo ≤ k) (h2 : k < hi) :
    getv l k ∈ rangeVals l lo hi := by
  unfold rangeVals
  exact List.mem_map_of_mem _ (List.mem_range'_1.mpr ⟨h1, by omega⟩)

theorem of_mem_rangeVals (l : List α) (lo hi : Nat) (x : α) (h : x ∈ rangeVals l lo hi) :
    ∃ k, lo ≤ k ∧ k < hi ∧ x = getv l k := by
  unfold rangeVals at h
  rw [List.mem_map] at h
  obtain ⟨a, ha, rfl⟩ := h
  rw [List.mem_range'_1] at ha
  exact ⟨a, ha.1, by omega, rfl⟩

theorem perm_swap_middle (u v : α) (A B C : List α) :
    List.Perm (A ++ u :: (B ++ v :: C)) (A ++ v :: (B ++ u :: C)) := by
  refine List.Perm.append_left A ?_
  exact ((List.Perm.cons u List.perm_middle).trans (List.Perm.swap v u (B ++ C))).trans
    (List.Perm.cons v List.perm_middle.symm)

theorem rangeVals_swap_perm_lt (l : List α) (lo hi i j : Nat)
    (h1 : lo ≤ i) (hij : i < j) (h4 : j < hi) :
    List.Perm (rangeVals (iter_swap l i j) lo hi) (rangeVals l lo hi) := by
  by_cases hb : i < l.length ∧ j < l.length
  · have dec : ∀ (m : List α), m.length = l.length →
        rangeVals m lo hi = rangeVals m lo i ++ getv m i ::
          (rangeVals m (i + 1) j ++ getv m j :: rangeVals m (j + 1) hi) := by
      intro m _
      rw [rangeVals_split m lo i hi h1 (by omega),
        rangeVals_split m i (i + 1) hi (by omega) (by omega),
        rangeVals_split m (i + 1) j hi (by omega) (by omega),
        rangeVals_split m j (j + 1) hi (by omega) (by omega),
        rangeVals_singleton, rangeVals_singleton]
      simp [List.append_assoc]
    rw [dec (iter_swap l i j) (length_iter_swap l i j), dec l rfl]
    rw [rangeVals_congr (iter_swap l i j) l lo i
        (fun k hk1 hk2 => getv_iter_swap_other l i j k (by omega) (by omega)),
      rangeVals_congr (iter_swap l i j) l (i + 1) j
        (fun k hk1 hk2 => getv_iter_swap_other l i j k (by omega) (by omega)),
      rangeVals_congr (iter_swap l i j) l (j + 1) hi
        (fun k hk1 hk2 => getv_iter_swap_other l i j k (by omega) (by omega)),
      getv_iter_swap_fst l i j hb.1 hb.2, getv_iter_swap_snd l i j hb.1 hb.2]
    exact perm_swap_middle (getv l j) (getv l i) _ _ _
  · have : iter_swap l i j = l := by unfold iter_swap; rw [if_neg hb]
    rw [this]

theorem rangeVals_swap_perm (l : List α) (lo hi i j : Nat)
    (h1 : lo ≤ i) (h2 : i < hi) (h3 : lo ≤ j) (h4 : j < hi) :
    List.Perm (rangeVals (iter_swap l i j) lo hi) (rangeVals l lo hi) := by
  rcases Nat.lt_trichotomy i j with hij | hij | hij
  · exact rangeVals_swap_perm_lt l lo hi i j h1 hij h4
  · subst hij
    rw [iter_swap_self]
  · rw [iter_swap_comm]
    exact rangeVals_swap_perm_lt l lo hi j i h3 hij h2

/-! ### The partition scan -/

/-- Full invariant of the partition scan of `sort`: it permutes the values
at positions `[first+1, first+size)`, leaves every other position unchanged,
and on exit the slots at offsets `[1, i)` from `first` hold values comparing
less than the pivot while the slots at offsets `[i, size)` hold values not
comparing less. -/
theorem partitionLoop_spec (comp : α → α → Bool) (pivot : α) (first size : Nat) :
    ∀ (fuel : Nat) (l : List α) (i j : Nat), size - j ≤ fuel →
      first + size ≤ l.length → 1 ≤ i → i ≤ j → j ≤ size →
      (∀ k, 1 ≤ k → k < i → comp (getv l (first + k)) pivot = true) →
      (∀ k, i ≤ k → k < j → comp (getv l (first + k)) pivot = false) →
      (partitionLoop comp pivot first size l i j).1.length = l.length ∧
      (∀ k, k < first + 1 ∨ first + size ≤ k →
        getv (partitionLoop comp pivot first size l i j).1 k = getv l k) ∧
      List.Perm
        (rangeVals (partitionLoop comp pivot first size l i j).1 (first + 1) (first + size))
        (rangeVals l (first + 1) (first + size)) ∧
      1 ≤ (partitionLoop comp pivot first size l i j).2 ∧
      (partitionLoop comp pivot first size l i j).2 ≤ size ∧
      (∀ k, 1 ≤ k → k < (partitionLoop comp pivot first size l i j).2 →
        comp (getv (partitionLoop comp pivot first size l i j).1 (first + k)) pivot = true) ∧
      (∀ k, (partitionLoop comp pivot first size l i j).2 ≤ k → k < size →
        comp (getv (partitionLoop comp pivot first size l i j).1 (first + k)) pivot = false) := by
  intro fuel
  induction fuel with
  | zero =>
    intro l i j hfuel hlen hi1 hij hjs hlow hhigh
    have hj : ¬ j < size := by omega
    rw [partitionLoop, if_neg hj]
    exact ⟨rfl, fun k _ => rfl, List.Perm.refl _, hi1, by omega, hlow,
      fun k hk1 hk2 => hhigh k hk1 (by omega)⟩
  | succ n ih =>
    intro l i j hfuel hlen hi1 hij hjs hlow hhigh
    by_cases hj : j < size
    · rw [partitionLoop, if_pos hj]
      cases hc : comp (getv l (first + j)) pivot with
      | false =>
        rw [if_neg (by simp [hc])]
        apply ih l i (j + 1) (by omega) hlen hi1 (by omega) (by omega) hlow
        intro k hk1 hk2
        by_cases hkj : k = j
        · subst hkj; exact hc
        · exact hhigh k hk1 (by omega)
      | true =>
        rw [if_pos rfl]
        have hji : first + j < l.length := by omega
        have hii : first + i < l.length := by omega
        have hlen' : first + size ≤ (iter_swap l (first + j) (first + i)).length := by
          rw [length_iter_swap]; exact hlen
        have hlow' : ∀ k, 1 ≤ k → k < i + 1 →
            comp (getv (iter_swap l (first + j) (first + i)) (first + k)) pivot = true := by
          intro k hk1 hk2
          by_cases hki : k = i
          · rw [hki, getv_iter_swap_snd l (first + j) (first + i) hji hii]
            exact hc
          · rw [getv_iter_swap_other l (first + j) (first + i) (first + k)
              (by omega) (by omega)]
            exact hlow k hk1 (by omega)
        have hhigh' : ∀ k, i + 1 ≤ k → k < j + 1 →
            comp (getv (iter_swap l (first + j) (first + i)) (first + k)) pivot = false := by
          intro k hk1 hk2
          by_cases hkj : k = j
          · rw [hkj, getv_iter_swap_fst l (first + j) (first + i) hji hii]
            exact hhigh i (Nat.le_refl i) (by omega)
          · rw [getv_iter_swap_other l (first + j) (first + i) (first + k)
              (by omega) (by omega)]
            exact hhigh k (by omega) (by omega)
        obtain ⟨r1, r2, r3, r4, r5, r6, r7⟩ :=
          ih (iter_swap l (first + j) (first + i)) (i + 1) (j + 1) (by omega) hlen'
            (by omega) (by omega) (by omega) hlow' hhigh'
        refine ⟨?_, ?_, ?_, by omega, r5, r6, r7⟩
        · rw [r1, length_iter_swap]
        · intro k hk
          rw [r2 k hk, getv_iter_swap_other l (first + j) (first + i) k
            (by omega) (by omega)]
        · exact r3.trans (rangeVals_swap_perm l (first + 1) (first + size) (first + j)
            (first + i) (by omega) (by omega) (by omega) (by omega))
    · rw [partitionLoop, if_neg hj]
      exact ⟨rfl, fun k _ => rfl, List.Perm.refl _, hi1, by omega, hlow,
        fun k hk1 hk2 => hhigh k hk1 (by omega)⟩

/-! ### Correctness of `sort` -/

/-- Main lemma on `sort`: it preserves the length of the store, changes no
position outside `[first, last)`, permutes the values of `[first, last)`,
and — when `comp` is asymmetric — leaves the range non-decreasing. -/
theorem sortSpec (comp : α → α → Bool)
    (hasym : ∀ x y, comp x y = true → comp y x = false) :
    ∀ (fuel : Nat) (l : List α) (first last : Nat), last - first ≤ fuel → last ≤ l.length →
      (sort comp l first last).length = l.length ∧
      (∀ k, k < first ∨ last ≤ k → getv (sort comp l first last) k = getv l k) ∧
      List.Perm (rangeVals (sort comp l first last) first last) (rangeVals l first last) ∧
      sortedRange comp (sort comp l first last) first last := by
  intro fuel
  induction fuel with
  | zero =>
    intro l first last hf hl
    have h0 : last ≤ first := by omega
    rw [sort, dif_pos h0]
    exact ⟨rfl, fun k _ => rfl, List.Perm.refl _,
      fun k hk1 hk2 => absurd hk2 (by omega)⟩
  | succ n ih =>
    intro l first last hf hl
    by_cases h0 : last ≤ first
    · rw [sort, dif_pos h0]
      exact ⟨rfl, fun k _ => rfl, List.Perm.refl _,
        fun k hk1 hk2 => absurd hk2 (by omega)⟩
    · rw [sort, dif_neg h0]
      set pv := getv l (first + (last - first) / 2) with hpv
      set l1 := pivotPrep l first last with hl1
      set P := partitionLoop comp pv first (last - first) l1 1 1 with hP
      set b := first + (P.2 - 1) with hb
      set l3 := iter_swap P.1 first b with hl3
      set l4 := sort comp l3 first b with hl4
      set l5 := sort comp l4 (first + P.2) last with hl5
      have hmidlt : first + (last - first) / 2 < last := by omega
      have hl1len : l1.length = l.length := by
        rw [hl1]
        unfold pivotPrep
        by_cases hmid : first + (last - first) / 2 ≠ first
        · rw [if_pos hmid, length_iter_swap]
        · rw [if_neg hmid]
      have hl1frame : ∀ k, k < first ∨ last ≤ k → getv l1 k = getv l k := by
        intro k hk
        rw [hl1]
        unfold pivotPrep
        by_cases hmid : first + (last - first) / 2 ≠ first
        · rw [if_pos hmid]
          exact getv_iter_swap_other l first _ k (by omega) (by omega)
        · rw [if_neg hmid]
      have hl1perm : List.Perm (rangeVals l1 first last) (rangeVals l first last) := by
        rw [hl1]
        unfold pivotPrep
        by_cases hmid : first + (last - first) / 2 ≠ first
        · rw [if_pos hmid]
          exact rangeVals_swap_perm l first last first _ (Nat.le_refl first) (by omega)
            (by omega) hmidlt
        · rw [if_neg hmid]
      have hfirstl1 : getv l1 first = pv := by
        rw [hl1]
        unfold pivotPrep
        by_cases hmid : first + (last - first) / 2 ≠ first
        · rw [if_pos hmid, getv_iter_swap_fst l first _ (by omega) (by omega)]
        · rw [if_neg hmid]
          rw [Ne, not_not] at hmid
          rw [hpv, hmid]
      have hlen1 : first + (last - first) ≤ l1.length := by omega
      obtain ⟨q1, q2, q3, q4, q5, q6, q7⟩ :=
        partitionLoop_spec comp pv first (last - first) (last - first) l1 1 1 (by omega)
          hlen1 (Nat.le_refl 1) (Nat.le_refl 1) (by omega)
          (fun k hk1 hk2 => absurd hk2 (by omega))
          (fun k hk1 hk2 => absurd hk2 (by omega))
      rw [← hP] at q1 q2 q3 q4 q5 q6 q7
      have hfl2 : first + (last - first) = last := by omega
      rw [hfl2] at q2 q3
      have hq1len : P.1.length = l.length := by rw [q1, hl1len]
      have hfirstP : getv P.1 first = pv := by
        rw [q2 first (Or.inl (by omega))]
        exact hfirstl1
      have hl3len : l3.length = l.length := by rw [hl3, length_iter_swap, hq1len]
      have hble : b < last := by omega
      have hpivb : getv l3 b = pv := by
        rw [hl3, getv_iter_swap_snd P.1 first b (by omega) (by omega)]
        exact hfirstP
      have hlow3 : ∀ k, first ≤ k → k < b → comp (getv l3 k) pv = true := by
        intro k hk1 hk2
        by_cases hkf : k = first
        · rw [hkf, hl3, getv_iter_swap_fst P.1 first b (by omega) (by omega)]
          have := q6 (P.2 - 1) (by omega) (by omega)
          rw [← hb] at this
          exact this
        · rw [hl3, getv_iter_swap_other P.1 first b k (hkf) (by omega)]
          have := q6 (k - first) (by omega) (by omega)
          rw [show first + (k - first) = k by omega] at this
          exact this
      have hhigh3 : ∀ k, first + P.2 ≤ k → k < last → comp (getv l3 k) pv = false := by
        intro k hk1 hk2
        rw [hl3, getv_iter_swap_other P.1 first b k (by omega) (by omega)]
        have := q7 (k - first) (by omega) (by omega)
        rw [show first + (k - first) = k by omega] at this
        exact this
      obtain ⟨s1, s2, s3, s4⟩ := ih l3 first b (by omega) (by omega)
      rw [← hl4] at s1 s2 s3 s4
      have hl4len : l4.length = l.length := by rw [s1, hl3len]
      have hpivb4 : getv l4 b = pv := by
        rw [s2 b (Or.inr (Nat.le_refl b))]
        exact hpivb
      have hlow4 : ∀ k, first ≤ k → k < b → comp (getv l4 k) pv = true := by
        intro k hk1 hk2
        have hmem : getv l4 k ∈ rangeVals l4 first b := mem_rangeVals _ _ _ _ hk1 hk2
        obtain ⟨t, ht1, ht2, htv⟩ := of_mem_rangeVals l3 first b _ (s3.mem_iff.mp hmem)
        rw [htv]
        exact hlow3 t ht1 ht2
      have hhigh4 : ∀ k, first + P.2 ≤ k → k < last → comp (getv l4 k) pv = false := by
        intro k hk1 hk2
        rw [s2 k (Or.inr (by omega))]
        exact hhigh3 k hk1 hk2
      obtain ⟨u1, u2, u3, u4⟩ := ih l4 (first + P.2) last (by omega) (by omega)
      rw [← hl5] at u1 u2 u3 u4
      refine ⟨u1.trans hl4len, ?_, ?_, ?_⟩
      · -- frame outside [first, last)
        intro k hk
        have hk5 : getv l5 k = getv l4 k := by
          refine u2 k ?_
          rcases hk with h | h
          · exact Or.inl (by omega)
          · exact Or.inr h
        have hk4 : getv l4 k = getv l3 k := by
          refine s2 k ?_
          rcases hk with h | h
          · exact Or.inl h
          · exact Or.inr (by omega)
        have hk3 : getv l3 k = getv P.1 k := by
          rw [hl3]
          exact getv_iter_swap_other P.1 first b k (by omega) (by omega)
        have hkP : getv P.1 k = getv l1 k := by
          refine q2 k ?_
          rcases hk with h | h
          · exact Or.inl (by omega)
          · exact Or.inr h
        rw [hk5, hk4, hk3, hkP]
        exact hl1frame k hk
      · -- permutation of the range values
        have pA : List.Perm (rangeVals l5 first last) (rangeVals l4 first last) := by
          rw [rangeVals_split l5 first (first + P.2) last (by omega) (by omega),
            rangeVals_split l4 first (first + P.2) last (by omega) (by omega),
            rangeVals_congr l5 l4 first (first + P.2)
              (fun k _ hk2 => u2 k (Or.inl hk2))]
          exact List.Perm.append (List.Perm.refl _) u3
        have pB : List.Perm (rangeVals l4 first last) (rangeVals l3 first last) := by
          rw [rangeVals_split l4 first b last (by omega) (by omega),
            rangeVals_split l3 first b last (by omega) (by omega),
            rangeVals_congr l4 l3 b last (fun k hk1 _ => s2 k (Or.inr hk1))]
          exact List.Perm.append s3 (List.Perm.refl _)
        have pC : List.Perm (rangeVals l3 first last) (rangeVals P.1 first last) := by
          rw [hl3]
          exact rangeVals_swap_perm P.1 first last first b (Nat.le_refl first) (by omega)
            (by omega) hble
        have pD : List.Perm (rangeVals P.1 first last) (rangeVals l1 first last) := by
          rw [rangeVals_split P.1 first (first + 1) last (by omega) (by omega),
            rangeVals_split l1 first (first + 1) last (by omega) (by omega),
            rangeVals_congr P.1 l1 first (first + 1)
              (fun k _ hk2 => q2 k (Or.inl hk2))]
          exact List.Perm.append (List.Perm.refl _) q3
        exact pA.trans (pB.trans (pC.trans (pD.trans hl1perm)))
      · -- the range is non-decreasing
        intro k hk1 hk2
        have hcase : k + 1 < b ∨ k + 1 = b ∨ k = b ∨ first + P.2 ≤ k := by omega
        rcases hcase with hc1 | hc2 | hc3 | hc4
        · rw [u2 (k + 1) (Or.inl (by omega)), u2 k (Or.inl (by omega))]
          exact s4 k hk1 (by omega)
        · have h5k1 : getv l5 (k + 1) = pv := by
            rw [u2 (k + 1) (Or.inl (by omega)), hc2, hpivb4]
          rw [h5k1, u2 k (Or.inl (by omega))]
          exact hasym _ _ (hlow4 k hk1 (by omega))
        · have h5k : getv l5 k = pv := by
            rw [u2 k (Or.inl (by omega)), hc3, hpivb4]
          rw [h5k]
          have hmem : getv l5 (k + 1) ∈ rangeVals l5 (first + P.2) last := by
            have : k + 1 = first + P.2 := by omega
            rw [this]
            exact mem_rangeVals _ _ _ _ (Nat.le_refl _) (by omega)
          obtain ⟨t, ht1, ht2, htv⟩ :=
            of_mem_rangeVals l4 (first + P.2) last _ (u3.mem_iff.mp hmem)
          rw [htv]
          exact hhigh4 t ht1 ht2
        · exact u4 k (by omega) hk2

/-- `sort` is a no-op on empty and single-element ranges. -/
theorem sort_noop (comp : α → α → Bool) (l : List α) (first last : Nat)
    (h : last ≤ first + 1) : sort comp l first last = l := by
  by_cases h0 : last ≤ first
  · rw [sort, dif_pos h0]
  · have hlf : last = first + 1 := by omega
    subst hlf
    rw [sort, dif_neg h0]
    have e1 : first + 1 - first = 1 := by omega
    rw [e1]
    norm_num
    rw [show pivotPrep l first (first + 1) = l from by simp [pivotPrep, e1]]
    rw [show partitionLoop comp (getv l first) first 1 l 1 1 = (l, 1) from by
      rw [partitionLoop]; simp]
    norm_num
    rw [iter_swap_self]
    rw [show sort comp l first first = l from by rw [sort, dif_pos (Nat.le_refl first)]]
    rw [sort, dif_pos (Nat.le_refl (first + 1))]

/-- The derived comparator of `stable_sort` is always asymmetric. -/
theorem ramda_asym (comp : α → α → Bool) :
    ∀ x y : α, ramda comp x y = true → ramda comp y x = false := by
  intro x y h
  unfold ramda at h ⊢
  cases hc : comp y x
  · simp
  · simp [hc] at h

/-- For an asymmetric `comp`, the derived comparator of `stable_sort` agrees
with `comp` on every pair. -/
theorem ramda_eq_of_asym (comp : α → α → Bool)
    (hasym : ∀ x y, comp x y = true → comp y x = false) : ramda comp = comp := by
  funext x y
  unfold ramda
  cases hc : comp x y
  · simp
  · simp [hasym x y hc]

/-! ### Correctness of `is_sorted_until` -/

/-- Invariant of the walk of `is_sorted_until`: starting behind position `f`
it either reaches `last` with no violation after `f`, or stops at the first
violating position after `f`. -/
theorem isuLoop_spec (comp : α → α → Bool) (l : List α) (last : Nat) :
    ∀ (fuel f : Nat), last - (f + 1) ≤ fuel →
      (isuLoop comp l last f (f + 1) = last ∧
        ∀ k, f < k → k < last → comp (getv l k) (getv l (k - 1)) = false) ∨
      (f < isuLoop comp l last f (f + 1) ∧ isuLoop comp l last f (f + 1) < last ∧
        comp (getv l (isuLoop comp l last f (f + 1)))
          (getv l (isuLoop comp l last f (f + 1) - 1)) = true ∧
        ∀ k, f < k → k < isuLoop comp l last f (f + 1) →
          comp (getv l k) (getv l (k - 1)) = false) := by
  intro fuel
  induction fuel with
  | zero =>
    intro f hfuel
    rw [isuLoop, if_neg (by omega)]
    exact Or.inl ⟨rfl, fun k hk1 hk2 => absurd hk2 (by omega)⟩
  | succ n ih =>
    intro f hfuel
    by_cases hnl : f + 1 < last
    · rw [isuLoop, if_pos hnl]
      cases hc : comp (getv l (f + 1)) (getv l f) with
      | true =>
        rw [if_pos rfl]
        right
        refine ⟨by omega, hnl, ?_, fun k hk1 hk2 => absurd hk2 (by omega)⟩
        rw [show f + 1 - 1 = f by omega]
        exact hc
      | false =>
        rw [if_neg (by simp)]
        rcases ih (f + 1) (by omega) with ⟨h1, h2⟩ | ⟨h1, h2, h3, h4⟩
        · left
          refine ⟨h1, ?_⟩
          intro k hk1 hk2
          by_cases hkf : k = f + 1
          · rw [hkf, show f + 1 - 1 = f by omega]
            exact hc
          · exact h2 k (by omega) hk2
        · right
          refine ⟨by omega, h2, h3, ?_⟩
          intro k hk1 hk2
          by_cases hkf : k = f + 1
          · rw [hkf, show f + 1 - 1 = f by omega]
            exact hc
          · exact h4 k (by omega) hk2
    · rw [isuLoop, if_neg hnl]
      exact Or.inl ⟨rfl, fun k hk1 hk2 => absurd hk2 (by omega)⟩

/-- Characterization of `is_sorted_until` on a valid range: it returns `last`
with no violation, or the first position violating non-decreasing order. -/
theorem is_sorted_until_cases (comp : α → α → Bool) (l : List α) (first last : Nat)
    (hfl : first ≤ last) :
    (is_sorted_until comp l first last = last ∧
      ∀ k, first < k → k < last → comp (getv l k) (getv l (k - 1)) = false) ∨
    (first < is_sorted_until comp l first last ∧ is_sorted_until comp l first last < last ∧
      comp (getv l (is_sorted_until comp l first last))
        (getv l (is_sorted_until comp l first last - 1)) = true ∧
      ∀ k, first < k → k < is_sorted_until comp l first last →
        comp (getv l k) (getv l (k - 1)) = false) := by
  unfold is_sorted_until
  by_cases hq : first = last
  · rw [if_pos hq]
    exact Or.inl ⟨rfl, fun k hk1 hk2 => absurd hk2 (by omega)⟩
  · rw [if_neg hq]
    exact isuLoop_spec comp l last last first (by omega)

/-! ### The counting loop of `nth_element` -/

/-- The counting loop of `nth_element` computes the number of comp-greater
elements of the scanned suffix, saturated at `n + 1` by the early break. -/
theorem countJ_eq_min (comp : α → α → Bool) (l : List α) (last i n : Nat) :
    ∀ (fuel j count : Nat), last - j ≤ fuel → count ≤ n →
      countJ comp l last i n j count =
        min (count + (List.range' j (last - j)).countP
          (fun t => !decide (i = t) && comp (getv l i) (getv l t))) (n + 1) := by
  intro fuel
  induction fuel with
  | zero =>
    intro j count hfuel hcn
    rw [countJ, if_neg (by omega), show last - j = 0 by omega]
    simp
    omega
  | succ m ih =>
    intro j count hfuel hcn
    by_cases hj : j < last
    · rw [countJ, if_pos hj]
      rw [show last - j = (last - (j + 1)) + 1 by omega, List.range'_succ, List.countP_cons]
      by_cases hij : i = j
      · rw [if_pos hij, ih (j + 1) count (by omega) hcn]
        have hp : (!decide (i = j) && comp (getv l i) (getv l j)) = false := by simp [hij]
        rw [hp]
        simp
      · rw [if_neg hij]
        cases hc : comp (getv l i) (getv l j) with
        | false =>
          rw [if_neg (by simp)]
          rw [ih (j + 1) count (by omega) hcn]
          have hp : (!decide (i = j) && false) = false := by simp
          rw [hp]
          simp
        | true =>
          rw [if_pos rfl]
          have hp : (!decide (i = j) && true) = true := by simp [hij]
          rw [hp]
          by_cases hcn1 : count + 1 > n
          · rw [if_pos hcn1]
            simp
            omega
          · rw [if_neg hcn1, ih (j + 1) (count + 1) (by omega) (by omega)]
            simp
            omega
    · rw [countJ, if_neg hj, show last - j = 0 by omega]
      simp
      omega

/-- The exit test `count === n` of `nth_element` holds exactly when position
`i` has `n` comp-greater elements in the whole range. -/
theorem countJ_eq_iff (comp : α → α → Bool) (l : List α) (first last i n : Nat) :
    countJ comp l last i n first 0 = n ↔ totalGreater comp l first last i = n := by
  rw [countJ_eq_min comp l last i n last first 0 (by omega) (Nat.zero_le n)]
  unfold totalGreater
  omega

/-- The candidate loop of `nth_element` either finds a first candidate and
swaps it with `nth`, or changes nothing when no candidate exists. -/
theorem nthLoop_spec (comp : α → α → Bool) (l : List α) (first last n nth : Nat) :
    ∀ (fuel i : Nat), last - i ≤ fuel →
      (∃ c, i ≤ c ∧ c < last ∧ countJ comp l last c n first 0 = n ∧
        nthLoop comp l first last n nth i = iter_swap l nth c) ∨
      (nthLoop comp l first last n nth i = l ∧
        ∀ t, i ≤ t → t < last → countJ comp l last t n first 0 ≠ n) := by
  intro fuel
  induction fuel with
  | zero =>
    intro i hfuel
    rw [nthLoop, if_neg (by omega)]
    exact Or.inr ⟨rfl, fun t ht1 ht2 => absurd ht2 (by omega)⟩
  | succ m ih =>
    intro i hfuel
    by_cases hi : i < last
    · rw [nthLoop, if_pos hi]
      by_cases hcnt : countJ comp l last i n first 0 = n
      · rw [if_pos hcnt]
        exact Or.inl ⟨i, Nat.le_refl i, hi, hcnt, rfl⟩
      · rw [if_neg hcnt]
        rcases ih (i + 1) (by omega) with ⟨c, h1, h2, h3, h4⟩ | ⟨h1, h2⟩
        · exact Or.inl ⟨c, by omega, h2, h3, h4⟩
        · refine Or.inr ⟨h1, ?_⟩
          intro t ht1 ht2
          by_cases hti : t = i
          · rw [hti]; exact hcnt
          · exact h2 t (by omega) ht2
    · rw [nthLoop, if_neg hi]
      exact Or.inr ⟨rfl, fun t ht1 ht2 => absurd ht2 (by omega)⟩

/-! ### Correctness of `partial_sort` -/

/-- The inner scan of `partial_sort` returns a position whose value no value
of `[lo, last)` compares less than. -/
theorem minLoop_spec (comp : α → α → Bool) (l : List α) (last : Nat)
    (hirr : ∀ x : α, comp x x = false)
    (htrans : ∀ x y z, comp x y = true → comp y z = true → comp x z = true) :
    ∀ (fuel lo j min : Nat), last - j ≤ fuel → lo ≤ min → min < j →
      (∀ k, lo ≤ k → k < j → comp (getv l k) (getv l min) = false) →
      lo ≤ minLoop comp l last j min ∧
      (minLoop comp l last j min < last ∨ minLoop comp l last j min = min) ∧
      (∀ k, lo ≤ k → k < last →
        comp (getv l k) (getv l (minLoop comp l last j min)) = false) := by
  intro fuel
  induction fuel with
  | zero =>
    intro lo j min hfuel hlom hminj hinv
    rw [minLoop, if_neg (by omega)]
    exact ⟨hlom, Or.inr rfl, fun k hk1 hk2 => hinv k hk1 (by omega)⟩
  | succ n ih =>
    intro lo j min hfuel hlom hminj hinv
    by_cases hj : j < last
    · rw [minLoop, if_pos hj]
      cases hc : comp (getv l j) (getv l min) with
      | true =>
        rw [if_pos rfl]
        have hinv' : ∀ k, lo ≤ k → k < j + 1 → comp (getv l k) (getv l j) = false := by
          intro k hk1 hk2
          by_cases hkj : k = j
          · rw [hkj]; exact hirr _
          · cases hck : comp (getv l k) (getv l j) with
            | false => rfl
            | true =>
              have h1 := htrans _ _ _ hck hc
              have h2 := hinv k hk1 (by omega)
              rw [h2] at h1
              exact h1.symm
        obtain ⟨a1, a2, a3⟩ := ih lo (j + 1) j (by omega) (by omega) (by omega) hinv'
        refine ⟨a1, ?_, a3⟩
        rcases a2 with h | h
        · exact Or.inl h
        · exact Or.inl (by omega)
      | false =>
        rw [if_neg (by simp)]
        have hinv' : ∀ k, lo ≤ k → k < j + 1 → comp (getv l k) (getv l min) = false := by
          intro k hk1 hk2
          by_cases hkj : k = j
          · rw [hkj]; exact hc
          · exact hinv k hk1 (by omega)
        exact ih lo (j + 1) min (by omega) hlom (by omega) hinv'
    · rw [minLoop, if_neg hj]
      exact ⟨hlom, Or.inr rfl, fun k hk1 hk2 => hinv k hk1 (by omega)⟩

/-- Invariant of the outer loop of `partial_sort`: on exit the store is a
permutation of `[i, last)` with everything else framed, and each position of
`[first0, middle)` holds a value that no later position's value compares less
than. -/
theorem psLoop_spec (comp : α → α → Bool) (middle last : Nat)
    (hirr : ∀ x : α, comp x x = false)
    (htrans : ∀ x y z, comp x y = true → comp y z = true → comp x z = true) :
    ∀ (fuel : Nat) (l : List α) (i first0 : Nat), middle - i ≤ fuel →
      middle ≤ last → last ≤ l.length → first0 ≤ i →
      (∀ p, first0 ≤ p → p < i → ∀ q, p < q → q < last →
        comp (getv l q) (getv l p) = false) →
      (psLoop comp middle last l i).length = l.length ∧
      (∀ k, k < i ∨ last ≤ k → getv (psLoop comp middle last l i) k = getv l k) ∧
      List.Perm (rangeVals (psLoop comp middle last l i) i last) (rangeVals l i last) ∧
      (∀ p, first0 ≤ p → p < middle → ∀ q, p < q → q < last →
        comp (getv (psLoop comp middle last l i) q)
          (getv (psLoop comp middle last l i) p) = false) := by
  intro fuel
  induction fuel with
  | zero =>
    intro l i first0 hfuel hml hll hfi hInv
    rw [psLoop, if_neg (by omega)]
    exact ⟨rfl, fun k _ => rfl, List.Perm.refl _,
      fun p hp1 hp2 q hq1 hq2 => hInv p hp1 (by omega) q hq1 hq2⟩
  | succ n ih =>
    intro l i first0 hfuel hml hll hfi hInv
    by_cases hi : i < middle
    · rw [psLoop, if_pos hi]
      set m := minLoop comp l last (i + 1) i with hm
      obtain ⟨m1, m2, m3⟩ := minLoop_spec comp l last hirr htrans last i (i + 1) i
        (by omega) (Nat.le_refl i) (by omega)
        (fun k hk1 hk2 => by rw [show k = i by omega]; exact hirr _)
      rw [← hm] at m1 m2 m3
      have hmlast : m < last := by rcases m2 with h | h <;> omega
      have hmlt : m < l.length := by omega
      set l' := if i ≠ m then iter_swap l i m else l with hl'
      have hl'len : l'.length = l.length := by
        rw [hl']
        by_cases him : i ≠ m
        · rw [if_pos him, length_iter_swap]
        · rw [if_neg him]
      have hl'frame : ∀ k, k < i ∨ last ≤ k → getv l' k = getv l k := by
        intro k hk
        rw [hl']
        by_cases him : i ≠ m
        · rw [if_pos him]
          exact getv_iter_swap_other l i m k (by omega) (by omega)
        · rw [if_neg him]
      have hl'perm : List.Perm (rangeVals l' i last) (rangeVals l i last) := by
        rw [hl']
        by_cases him : i ≠ m
        · rw [if_pos him]
          exact rangeVals_swap_perm l i last i m (Nat.le_refl i) (by omega) m1 hmlast
        · rw [if_neg him]
      have hl'i : getv l' i = getv l m := by
        rw [hl']
        by_cases him : i ≠ m
        · rw [if_pos him]
          exact getv_iter_swap_fst l i m (by omega) hmlt
        · rw [if_neg him]
          rw [Ne, not_not] at him
          rw [him]
      have hl'm : getv l' m = getv l i := by
        rw [hl']
        by_cases him : i ≠ m
        · rw [if_pos him]
          exact getv_iter_swap_snd l i m (by omega) hmlt
        · rw [if_neg him]
          rw [Ne, not_not] at him
          rw [him]
      have hl'other : ∀ q, q ≠ i → q ≠ m → getv l' q = getv l q := by
        intro q hq1 hq2
        rw [hl']
        by_cases him : i ≠ m
        · rw [if_pos him]
          exact getv_iter_swap_other l i m q hq1 hq2
        · rw [if_neg him]
      have hInv' : ∀ p, first0 ≤ p → p < i + 1 → ∀ q, p < q → q < last →
          comp (getv l' q) (getv l' p) = false := by
        intro p hp1 hp2 q hq1 hq2
        by_cases hpi : p = i
        · rw [hpi, hl'i]
          by_cases hqm : q = m
          · rw [hqm, hl'm]
            exact m3 i (Nat.le_refl i) (by omega)
          · rw [hl'other q (by omega) hqm]
            exact m3 q (by omega) hq2
        · rw [hl'frame p (Or.inl (by omega))]
          by_cases hqi : q = i
          · rw [hqi, hl'i]
            exact hInv p hp1 (by omega) m (by omega) hmlast
          · by_cases hqm : q = m
            · rw [hqm, hl'm]
              exact hInv p hp1 (by omega) i (by omega) (by omega)
            · rw [hl'other q hqi hqm]
              exact hInv p hp1 (by omega) q hq1 hq2
      obtain ⟨r1, r2, r3, r4⟩ := ih l' (i + 1) first0 (by omega) hml (by omega)
        (by omega) hInv'
      refine ⟨r1.trans hl'len, ?_, ?_, r4⟩
      · intro k hk
        have hk' : k < i + 1 ∨ last ≤ k := by rcases hk with h | h; exact Or.inl (by omega); exact Or.inr h
        rw [r2 k hk']
        exact hl'frame k hk
      · refine List.Perm.trans ?_ hl'perm
        rw [rangeVals_split (psLoop comp middle last l' (i + 1)) i (i + 1) last
            (by omega) (by omega), rangeVals_singleton,
          rangeVals_split l' i (i + 1) last (by omega) (by omega), rangeVals_singleton,
          r2 i (Or.inl (by omega))]
        exact List.Perm.append (List.Perm.refl _) r3
    · rw [psLoop, if_neg hi]
      exact ⟨rfl, fun k _ => rfl, List.Perm.refl _,
        fun p hp1 hp2 q hq1 hq2 => hInv p hp1 (by omega) q hq1 hq2⟩

/-! ### Correctness of `partial_sort_copy` -/

theorem rangeVals_self (l : List α) : rangeVals l 0 l.length = l := by
  apply List.ext_getElem
  · simp [length_rangeVals]
  · intro n h1 h2
    simp only [rangeVals, List.getElem_map, List.getElem_range', Nat.zero_add, Nat.one_mul]
    exact getv_eq_getElem l n h2

theorem getv_rangeVals (a : List α) (lo hi t : Nat) (h : t < hi - lo) :
    getv (rangeVals a lo hi) t = getv a (lo + t) := by
  rw [getv_eq_getElem _ t (by rw [length_rangeVals]; exact h)]
  simp only [rangeVals, List.getElem_map, List.getElem_range', Nat.one_mul]

theorem rangeVals_shift_eq (a b : List α) (alo ahi blo bhi : Nat)
    (hlen : ahi - alo = bhi - blo)
    (h : ∀ t, t < ahi - alo → getv a (alo + t) = getv b (blo + t)) :
    rangeVals a alo ahi = rangeVals b blo bhi := by
  apply List.ext_getElem
  · rw [length_rangeVals, length_rangeVals, hlen]
  · intro t h1 h2
    rw [length_rangeVals] at h1
    rw [← getv_eq_getElem _ t (by rw [length_rangeVals]; exact h1),
      ← getv_eq_getElem _ t (by rw [length_rangeVals]; omega),
      getv_rangeVals a alo ahi t h1, getv_rangeVals b blo bhi t (by omega)]
    exact h t h1

/-- The copy loop advances the output by the copied length, preserves
positions outside the written window, and writes the source values in
order. -/
theorem copyRange_spec (src : List α) :
    ∀ (fuel sfirst slast : Nat) (dst : List α) (dfirst : Nat), slast - sfirst ≤ fuel →
      (copyRange src sfirst slast dst dfirst).2 = dfirst + (slast - sfirst) ∧
      (copyRange src sfirst slast dst dfirst).1.length = dst.length ∧
      (∀ k, k < dfirst ∨ dfirst + (slast - sfirst) ≤ k →
        getv (copyRange src sfirst slast dst dfirst).1 k = getv dst k) ∧
      (dfirst + (slast - sfirst) ≤ dst.length →
        ∀ t, t < slast - sfirst →
          getv (copyRange src sfirst slast dst dfirst).1 (dfirst + t) =
            getv src (sfirst + t)) := by
  intro fuel
  induction fuel with
  | zero =>
    intro sfirst slast dst dfirst hfuel
    rw [copyRange, if_neg (by omega), show slast - sfirst = 0 by omega]
    exact ⟨by omega, rfl, fun k _ => rfl, fun _ t ht => absurd ht (by omega)⟩
  | succ n ih =>
    intro sfirst slast dst dfirst hfuel
    by_cases hs : sfirst < slast
    · rw [copyRange, if_pos hs]
      obtain ⟨c1, c2, c3, c4⟩ := ih (sfirst + 1) slast (dst.set dfirst (getv src sfirst))
        (dfirst + 1) (by omega)
      refine ⟨by rw [c1]; omega, by rw [c2, List.length_set], ?_, ?_⟩
      · intro k hk
        rw [c3 k (by omega)]
        exact getv_set_ne dst dfirst k _ (by omega)
      · intro hbound t ht
        have hblen : dfirst + 1 + (slast - (sfirst + 1)) ≤
            (dst.set dfirst (getv src sfirst)).length := by
          rw [List.length_set]; omega
        by_cases ht0 : t = 0
        · rw [ht0]
          rw [c3 (dfirst + 0) (by omega)]
          rw [show dfirst + 0 = dfirst by omega, show sfirst + 0 = sfirst by omega]
          exact getv_set_self dst dfirst _ (by omega)
        · have := c4 hblen (t - 1) (by omega)
          rw [show dfirst + 1 + (t - 1) = dfirst + t by omega,
            show sfirst + 1 + (t - 1) = sfirst + t by omega] at this
          exact this
    · rw [copyRange, if_neg hs, show slast - sfirst = 0 by omega]
      exact ⟨by omega, rfl, fun k _ => rfl, fun _ t ht => absurd ht (by omega)⟩

/-- In an adjacent-sorted range, no later value compares less than an
earlier one, when `comp` satisfies the splitting law of a strict weak
order. -/
theorem sortedRange_pairwise (comp : α → α → Bool)
    (hsplit : ∀ x y z, comp x z = true → comp x y = true ∨ comp y z = true)
    (l : List α) (first last : Nat) (hs : sortedRange comp l first last) :
    ∀ (d p q : Nat), q - p ≤ d → first ≤ p → p < q → q < last →
      comp (getv l q) (getv l p) = false := by
  intro d
  induction d with
  | zero =>
    intro p q h1 h2 h3 h4
    omega
  | succ n ih =>
    intro p q h1 h2 h3 h4
    by_cases hpq : q = p + 1
    · rw [hpq]
      exact hs p h2 (by omega)
    · cases hcq : comp (getv l q) (getv l p) with
      | false => rfl
      | true =>
        exfalso
        rcases hsplit (getv l q) (getv l (q - 1)) (getv l p) hcq with h | h
        · have hadj := hs (q - 1) (by omega) (by omega)
          rw [show q - 1 + 1 = q by omega] at hadj
          rw [hadj] at h
          exact Bool.false_ne_true h
        · rw [ih p (q - 1) (by omega) h2 (by omega) (by omega)] at h
          exact Bool.false_ne_true h

/-! ### Concrete comparators used in witnesses and counterexamples -/

theorem less_isSWO : IsSWO less := by
  refine ⟨?_, ?_, ?_⟩
  · intro x y h
    simp only [less, decide_eq_true_eq] at h
    simp only [less, decide_eq_false_iff_not]
    omega
  · intro x y z h1 h2
    simp only [less, decide_eq_true_eq] at h1 h2
    simp only [less, decide_eq_true_eq]
    omega
  · intro x y z h
    simp only [less, decide_eq_true_eq] at h
    simp only [less, decide_eq_true_eq]
    omega

/-- A comparator on naturals comparing only the tens digit: `10` and `11`
are tied (neither compares less than the other). -/
def lessDecade (x y : Nat) : Bool := decide (x / 10 < y / 10)

theorem lessDecade_isSWO : IsSWO lessDecade := by
  refine ⟨?_, ?_, ?_⟩
  · intro x y h
    simp only [lessDecade, decide_eq_true_eq] at h
    simp only [lessDecade, decide_eq_false_iff_not]
    omega
  · intro x y z h1 h2
    simp only [lessDecade, decide_eq_true_eq] at h1 h2
    simp only [lessDecade, decide_eq_true_eq]
    omega
  · intro x y z h
    simp only [lessDecade, decide_eq_true_eq] at h
    simp only [lessDecade, decide_eq_true_eq]
    omega

/-! ### The claims -/

/-- C1: for every finite range `[first, last)` and strict-weak-order
comparator, `sort` rearranges the range in place into a permutation of its
original contents that is non-decreasing under `comp`: the multiset of
values of `[first, last)` is preserved, every adjacent pair has
`comp(later, earlier) = false`, and positions outside the range keep their
values. -/
theorem sort_sorts_range (comp : α → α → Bool) (hswo : IsSWO comp)
    (l : List α) (first last : Nat) (hlen : last ≤ l.length) :
    List.Perm (rangeVals (sort comp l first last) first last) (rangeVals l first last) ∧
    sortedRange comp (sort comp l first last) first last ∧
    (sort comp l first last).length = l.length ∧
    (∀ k, k < first ∨ last ≤ k → getv (sort comp l first last) k = getv l k) := by
  obtain ⟨a1, a2, a3, a4⟩ := sortSpec comp hswo.1 (last - first) l first last (Nat.le_refl _) hlen
  exact ⟨a3, a4, a1, a2⟩

/-- Witness for C1 at the spec's concrete scenario `[5,3,8,1,9,2]`. -/
theorem sort_sorts_range_witness :
    IsSWO less ∧ 6 ≤ ([5, 3, 8, 1, 9, 2] : List Nat).length ∧
    (List.Perm (rangeVals (sort less [5, 3, 8, 1, 9, 2] 0 6) 0 6)
      (rangeVals [5, 3, 8, 1, 9, 2] 0 6) ∧
    sortedRange less (sort less [5, 3, 8, 1, 9, 2] 0 6) 0 6 ∧
    (sort less [5, 3, 8, 1, 9, 2] 0 6).length = ([5, 3, 8, 1, 9, 2] : List Nat).length ∧
    (∀ k, k < 0 ∨ 6 ≤ k →
      getv (sort less [5, 3, 8, 1, 9, 2] 0 6) k = getv [5, 3, 8, 1, 9, 2] k)) :=
  ⟨less_isSWO, by decide,
    sort_sorts_range less less_isSWO [5, 3, 8, 1, 9, 2] 0 6 (by decide)⟩

/-- C2: at the spec's concrete scenario `S = [5,3,8,1,9,2]`, `nth` at
index 2 and numeric less-than, `nth_element` swaps position 0 into
position 2 and leaves the value `5` there — the element with exactly two
comp-greater elements, i.e. the one of sorted index 3 — while the sorted
range has `3` at index 2.  The counting loop counts `comp(i.value, j.value)`
(elements greater than the candidate) instead of elements less than it, so
the element placed at `nth` is the one of sorted index `size - 1 - n`, not
`n`. -/
theorem nth_element_rank_flaw :
    nth_element less [5, 3, 8, 1, 9, 2] 0 2 6 = [8, 3, 5, 1, 9, 2] ∧
    getv (nth_element less [5, 3, 8, 1, 9, 2] 0 2 6) 2 = 5 ∧
    getv (sort less [5, 3, 8, 1, 9, 2] 0 6) 2 = 3 := by
  refine ⟨?_, ?_, ?_⟩
  · simp [nth_element, nthLoop, countJ, iter_swap, getv, less]
  · simp [nth_element, nthLoop, countJ, iter_swap, getv, less]
  · simp [sort, partitionLoop, pivotPrep, iter_swap, getv, less]

/-- C3 counterexample: `10` and `11` are tied under the strict weak order
`lessDecade` and appear in the original order `[10, 11]`, yet `stable_sort`
returns `[11, 10]`: the copy of `S[0]` no longer precedes the copy of
`S[1]`, so the stability conjunct of the claim is false. -/
theorem stable_sort_not_stable :
    IsSWO lessDecade ∧
    lessDecade 10 11 = false ∧ lessDecade 11 10 = false ∧
    stable_sort lessDecade [10, 11] 0 2 = [11, 10] := by
  refine ⟨lessDecade_isSWO, by decide, by decide, ?_⟩
  simp [stable_sort, ramda, sort, partitionLoop, pivotPrep, iter_swap, getv, lessDecade]

/-- C3 amended: for every finite range and strict-weak-order comparator,
`stable_sort` produces a permutation of the range that is non-decreasing
under `comp` (and touches nothing outside the range), but — unlike the
claim — it does not preserve the relative order of tied elements. -/
theorem stable_sort_sorts_range (comp : α → α → Bool) (hswo : IsSWO comp)
    (l : List α) (first last : Nat) (hlen : last ≤ l.length) :
    List.Perm (rangeVals (stable_sort comp l first last) first last)
      (rangeVals l first last) ∧
    sortedRange comp (stable_sort comp l first last) first last ∧
    (stable_sort comp l first last).length = l.length ∧
    (∀ k, k < first ∨ last ≤ k → getv (stable_sort comp l first last) k = getv l k) := by
  unfold stable_sort
  rw [ramda_eq_of_asym comp hswo.1]
  obtain ⟨a1, a2, a3, a4⟩ := sortSpec comp hswo.1 (last - first) l first last (Nat.le_refl _) hlen
  exact ⟨a3, a4, a1, a2⟩

/-- Witness for the amended C3. -/
theorem stable_sort_sorts_range_witness :
    IsSWO less ∧ 3 ≤ ([3, 1, 2] : List Nat).length ∧
    (List.Perm (rangeVals (stable_sort less [3, 1, 2] 0 3) 0 3)
      (rangeVals [3, 1, 2] 0 3) ∧
    sortedRange less (stable_sort less [3, 1, 2] 0 3) 0 3 ∧
    (stable_sort less [3, 1, 2] 0 3).length = ([3, 1, 2] : List Nat).length ∧
    (∀ k, k < 0 ∨ 3 ≤ k →
      getv (stable_sort less [3, 1, 2] 0 3) k = getv [3, 1, 2] k)) :=
  ⟨less_isSWO, by decide,
    stable_sort_sorts_range less less_isSWO [3, 1, 2] 0 3 (by decide)⟩

/-- C7: on a valid range, `is_sorted_until` returns `last` exactly when no
element compares less than its immediate predecessor (in particular on
empty and single-element ranges), and otherwise returns the first violating
position; `is_sorted` is true iff `is_sorted_until` returns exactly
`last`. -/
theorem is_sorted_until_first_violation (comp : α → α → Bool) (l : List α)
    (first last : Nat) (hfl : first ≤ last) :
    (is_sorted_until comp l first last = last →
      ∀ k, first < k → k < last → comp (getv l k) (getv l (k - 1)) = false) ∧
    (is_sorted_until comp l first last ≠ last →
      first < is_sorted_until comp l first last ∧
      is_sorted_until comp l first last < last ∧
      comp (getv l (is_sorted_until comp l first last))
        (getv l (is_sorted_until comp l first last - 1)) = true ∧
      ∀ k, first < k → k < is_sorted_until comp l first last →
        comp (getv l k) (getv l (k - 1)) = false) ∧
    (last ≤ first + 1 → is_sorted_until comp l first last = last) ∧
    (is_sorted comp l first last = true ↔ is_sorted_until comp l first last = last) := by
  have hiff : is_sorted comp l first last = true ↔
      is_sorted_until comp l first last = last := by
    simp [is_sorted]
  rcases is_sorted_until_cases comp l first last hfl with ⟨h1, h2⟩ | ⟨h1, h2, h3, h4⟩
  · exact ⟨fun _ => h2, fun hne => absurd h1 hne, fun _ => h1, hiff⟩
  · refine ⟨fun heq => absurd heq (by omega), fun _ => ⟨h1, h2, h3, h4⟩, fun hsl => by omega,
      hiff⟩

/-- Witness for C7 at the spec's scenario `[1,3,2,4]` (violation at the
position holding `2`). -/
theorem is_sorted_until_first_violation_witness :
    (0 : Nat) ≤ 4 ∧
    ((is_sorted_until less [1, 3, 2, 4] 0 4 = 4 →
      ∀ k, 0 < k → k < 4 → less (getv [1, 3, 2, 4] k) (getv [1, 3, 2, 4] (k - 1)) = false) ∧
    (is_sorted_until less [1, 3, 2, 4] 0 4 ≠ 4 →
      0 < is_sorted_until less [1, 3, 2, 4] 0 4 ∧
      is_sorted_until less [1, 3, 2, 4] 0 4 < 4 ∧
      less (getv [1, 3, 2, 4] (is_sorted_until less [1, 3, 2, 4] 0 4))
        (getv [1, 3, 2, 4] (is_sorted_until less [1, 3, 2, 4] 0 4 - 1)) = true ∧
      ∀ k, 0 < k → k < is_sorted_until less [1, 3, 2, 4] 0 4 →
        less (getv [1, 3, 2, 4] k) (getv [1, 3, 2, 4] (k - 1)) = false) ∧
    (4 ≤ 0 + 1 → is_sorted_until less [1, 3, 2, 4] 0 4 = 4) ∧
    (is_sorted less [1, 3, 2, 4] 0 4 = true ↔ is_sorted_until less [1, 3, 2, 4] 0 4 = 4)) :=
  ⟨by decide, is_sorted_until_first_violation less [1, 3, 2, 4] 0 4 (by decide)⟩

/-- C8: an empty or single-element range is a no-op for `sort`, and on a
range of two or more elements the partition scan's boundary `i` satisfies
`1 ≤ i ≤ size`, making both recursive subranges `[first, first + (i-1))`
and `[first + i, last)` strictly shorter than the range — the decrease that
terminates the recursion (every embedded algorithm is a total function). -/
theorem sort_terminates (comp : α → α → Bool) (l : List α) (first last : Nat) :
    (last ≤ first + 1 → sort comp l first last = l) ∧
    (first < last →
      (first + ((partitionLoop comp (getv l (first + (last - first) / 2)) first (last - first)
        (pivotPrep l first last) 1 1).2 - 1)) - first < last - first ∧
      last - (first + (partitionLoop comp (getv l (first + (last - first) / 2)) first
        (last - first) (pivotPrep l first last) 1 1).2) < last - first) := by
  constructor
  · exact sort_noop comp l first last
  · intro h
    have hle := partitionLoop_le comp (getv l (first + (last - first) / 2)) first
      (last - first) (last - first) (pivotPrep l first last) 1 1 (by omega) (by omega)
      (by omega)
    omega

/-- Witness for C8: the no-op on a singleton range and the strict decrease
on a two-element range. -/
theorem sort_terminates_witness :
    ((1 : Nat) ≤ 0 + 1 ∧ sort less [7] 0 1 = [7]) ∧
    ((0 : Nat) < 2 ∧
      ((0 + ((partitionLoop less (getv [2, 1] (0 + (2 - 0) / 2)) 0 (2 - 0)
        (pivotPrep [2, 1] 0 2) 1 1).2 - 1)) - 0 < 2 - 0 ∧
      2 - (0 + (partitionLoop less (getv [2, 1] (0 + (2 - 0) / 2)) 0 (2 - 0)
        (pivotPrep [2, 1] 0 2) 1 1).2) < 2 - 0)) :=
  ⟨⟨by decide, (sort_terminates less [7] 0 1).1 (by decide)⟩,
   ⟨by decide, (sort_terminates less [2, 1] 0 2).2 (by decide)⟩⟩

/-- C9: `nth_element` performs at most one swap: either some first candidate
position `c` (whose count of comp-greater elements equals
`distance(first, nth)`) is exchanged with `nth` — leaving every other
position's value unchanged — or no position has that count and the store is
returned with every position unchanged. -/
theorem nth_element_at_most_one_swap (comp : α → α → Bool) (l : List α)
    (first nth last : Nat) :
    (∃ c, first ≤ c ∧ c < last ∧
      totalGreater comp l first last c = nth - first ∧
      nth_element comp l first nth last = iter_swap l nth c ∧
      ∀ k, k ≠ nth → k ≠ c → getv (nth_element comp l first nth last) k = getv l k) ∨
    (nth_element comp l first nth last = l ∧
      ∀ t, first ≤ t → t < last → totalGreater comp l first last t ≠ nth - first) := by
  unfold nth_element
  rcases nthLoop_spec comp l first last (nth - first) nth last first (by omega)
    with ⟨c, h1, h2, h3, h4⟩ | ⟨h1, h2⟩
  · left
    refine ⟨c, h1, h2, (countJ_eq_iff comp l first last c (nth - first)).mp h3, h4, ?_⟩
    intro k hk1 hk2
    rw [h4]
    exact getv_iter_swap_other l nth c k hk1 hk2
  · right
    exact ⟨h1, fun t ht1 ht2 hG =>
      h2 t ht1 ht2 ((countJ_eq_iff comp l first last t (nth - first)).mpr hG)⟩

/-- C10: for an asymmetric comparator (as every strict weak ordering is),
the derived comparator `ramda` of `stable_sort` agrees with `comp` on all
pairs, and `stable_sort` computes exactly the same result as `sort`. -/
theorem stable_sort_eq_sort (comp : α → α → Bool)
    (hasym : ∀ x y, comp x y = true → comp y x = false)
    (l : List α) (first last : Nat) :
    (∀ x y, ramda comp x y = comp x y) ∧
    stable_sort comp l first last = sort comp l first last := by
  have h := ramda_eq_of_asym comp hasym
  constructor
  · intro x y
    rw [h]
  · unfold stable_sort
    rw [h]

/-- Witness for C10. -/
theorem stable_sort_eq_sort_witness :
    (∀ x y : Nat, less x y = true → less y x = false) ∧
    ((∀ x y : Nat, ramda less x y = less x y) ∧
      stable_sort less [5, 3, 8, 1, 9, 2] 0 6 = sort less [5, 3, 8, 1, 9, 2] 0 6) :=
  ⟨less_isSWO.1, stable_sort_eq_sort less less_isSWO.1 [5, 3, 8, 1, 9, 2] 0 6⟩

/-- C4: after `partial_sort`, the range `[first, last)` is permuted with
nothing outside it touched, the prefix `[first, middle)` is sorted
non-decreasingly, and every element left in `[middle, last)` compares
not-less than every element of the prefix — so the prefix holds exactly the
`distance(first, middle)` smallest elements of the original range as a
multiset.  `middle = first` is a no-op, and with `middle = last` the
prefix-sorted conjunct covers the whole range. -/
theorem partial_sort_prefix (comp : α → α → Bool) (hswo : IsSWO comp)
    (l : List α) (first middle last : Nat) (h1 : first ≤ middle) (h2 : middle ≤ last)
    (h3 : last ≤ l.length) :
    List.Perm (rangeVals (partial_sort comp l first middle last) first last)
      (rangeVals l first last) ∧
    (∀ k, k < first ∨ last ≤ k →
      getv (partial_sort comp l first middle last) k = getv l k) ∧
    sortedRange comp (partial_sort comp l first middle last) first middle ∧
    (∀ p q, first ≤ p → p < middle → middle ≤ q → q < last →
      comp (getv (partial_sort comp l first middle last) q)
        (getv (partial_sort comp l first middle last) p) = false) ∧
    (middle = first → partial_sort comp l first middle last = l) ∧
    (partial_sort comp l first middle last).length = l.length := by
  have hirr : ∀ x : α, comp x x = false := by
    intro x
    cases hc : comp x x with
    | false => rfl
    | true =>
      have h := hswo.1 x x hc
      rw [hc] at h
      exact h
  obtain ⟨r1, r2, r3, r4⟩ := psLoop_spec comp middle last hirr hswo.2.1 (middle - first)
    l first first (Nat.le_refl _) h2 h3 (Nat.le_refl first)
    (fun p hp1 hp2 => absurd hp1 (by omega))
  unfold partial_sort
  refine ⟨r3, r2, ?_, ?_, ?_, r1⟩
  · intro k hk1 hk2
    exact r4 k hk1 (by omega) (k + 1) (by omega) (by omega)
  · intro p q hp1 hp2 hq1 hq2
    exact r4 p hp1 hp2 q (by omega) hq2
  · intro hmf
    rw [psLoop, if_neg (by omega)]

/-- Witness for C4 at the spec's scenario `k = 3` on `[5,3,8,1,9,2]`. -/
theorem partial_sort_prefix_witness :
    IsSWO less ∧ (0 : Nat) ≤ 3 ∧ (3 : Nat) ≤ 6 ∧
    6 ≤ ([5, 3, 8, 1, 9, 2] : List Nat).length ∧
    (List.Perm (rangeVals (partial_sort less [5, 3, 8, 1, 9, 2] 0 3 6) 0 6)
      (rangeVals [5, 3, 8, 1, 9, 2] 0 6) ∧
    (∀ k, k < 0 ∨ 6 ≤ k →
      getv (partial_sort less [5, 3, 8, 1, 9, 2] 0 3 6) k = getv [5, 3, 8, 1, 9, 2] k) ∧
    sortedRange less (partial_sort less [5, 3, 8, 1, 9, 2] 0 3 6) 0 3 ∧
    (∀ p q, 0 ≤ p → p < 3 → 3 ≤ q → q < 6 →
      less (getv (partial_sort less [5, 3, 8, 1, 9, 2] 0 3 6) q)
        (getv (partial_sort less [5, 3, 8, 1, 9, 2] 0 3 6) p) = false) ∧
    ((3 : Nat) = 0 → partial_sort less [5, 3, 8, 1, 9, 2] 0 3 6 = [5, 3, 8, 1, 9, 2]) ∧
    (partial_sort less [5, 3, 8, 1, 9, 2] 0 3 6).length =
      ([5, 3, 8, 1, 9, 2] : List Nat).length) :=
  ⟨less_isSWO, by decide, by decide, by decide,
    partial_sort_prefix less less_isSWO [5, 3, 8, 1, 9, 2] 0 3 6 (by decide) (by decide)
      (by decide)⟩

/-- C5: `partial_sort_copy` writes exactly
`min(distance(first, last), distance(output_first, output_last))` elements
into the output starting at `output_first` — the smallest that many elements
of the input, in non-decreasing order — returns the output position
immediately past the last written element, and leaves the rest of the
output store untouched; with an empty input or output range it writes
nothing and returns `output_first`. -/
theorem partial_sort_copy_writes (comp : α → α → Bool) (hswo : IsSWO comp)
    (l : List α) (first last : Nat) (out : List α) (ofirst olast : Nat)
    (hfl : first ≤ last) (hll : last ≤ l.length) (hoo : ofirst ≤ olast)
    (hol : olast ≤ out.length) :
    (partial_sort_copy comp l first last out ofirst olast).2.2 =
      ofirst + min (last - first) (olast - ofirst) ∧
    (partial_sort_copy comp l first last out ofirst olast).2.1.length = out.length ∧
    (∀ k, k < ofirst ∨ ofirst + min (last - first) (olast - ofirst) ≤ k →
      getv (partial_sort_copy comp l first last out ofirst olast).2.1 k = getv out k) ∧
    sortedRange comp (partial_sort_copy comp l first last out ofirst olast).2.1
      ofirst (ofirst + min (last - first) (olast - ofirst)) ∧
    (∃ rest : List α,
      List.Perm
        (rangeVals (partial_sort_copy comp l first last out ofirst olast).2.1
          ofirst (ofirst + min (last - first) (olast - ofirst)) ++ rest)
        (rangeVals l first last) ∧
      ∀ x ∈ rangeVals (partial_sort_copy comp l first last out ofirst olast).2.1
          ofirst (ofirst + min (last - first) (olast - ofirst)),
        ∀ y ∈ rest, comp y x = false) ∧
    ((first = last ∨ ofirst = olast) →
      (partial_sort_copy comp l first last out ofirst olast).2.1 = out ∧
      (partial_sort_copy comp l first last out ofirst olast).2.2 = ofirst) := by
  set vec := rangeVals l first last with hvec
  have hveclen : vec.length = last - first := by
    rw [hvec]
    exact length_rangeVals l first last
  set srt := sort comp vec 0 vec.length with hsrt
  obtain ⟨w1, w2, w3, w4⟩ := sortSpec comp hswo.1 vec.length vec 0 vec.length
    (Nat.le_refl _) (Nat.le_refl _)
  rw [← hsrt] at w1 w3 w4
  have hsrtlen : srt.length = last - first := by rw [w1, hveclen]
  have w4' : sortedRange comp srt 0 (last - first) := by
    rw [← hveclen]
    exact w4
  have w3' : List.Perm (rangeVals srt 0 (last - first)) (rangeVals l first last) := by
    rw [← hveclen, ← hvec]
    rw [rangeVals_self] at w3
    exact w3
  have hout : (partial_sort_copy comp l first last out ofirst olast).2.1 =
      (copyRange srt 0 (min (last - first) (olast - ofirst)) out ofirst).1 := by
    unfold partial_sort_copy
    rw [← hvec, ← hsrt]
    by_cases hbr : last - first > olast - ofirst
    · rw [if_pos hbr, show min (last - first) (olast - ofirst) = olast - ofirst by omega]
    · rw [if_neg hbr, hsrtlen,
        show min (last - first) (olast - ofirst) = last - first by omega]
  have hpos : (partial_sort_copy comp l first last out ofirst olast).2.2 =
      (copyRange srt 0 (min (last - first) (olast - ofirst)) out ofirst).2 := by
    unfold partial_sort_copy
    rw [← hvec, ← hsrt]
    by_cases hbr : last - first > olast - ofirst
    · rw [if_pos hbr, show min (last - first) (olast - ofirst) = olast - ofirst by omega]
    · rw [if_neg hbr, hsrtlen,
        show min (last - first) (olast - ofirst) = last - first by omega]
  obtain ⟨c1, c2, c3, c4⟩ := copyRange_spec srt (min (last - first) (olast - ofirst)) 0
    (min (last - first) (olast - ofirst)) out ofirst (by omega)
  rw [Nat.sub_zero] at c1 c3 c4
  have hseg : rangeVals (copyRange srt 0 (min (last - first) (olast - ofirst)) out
        ofirst).1 ofirst (ofirst + min (last - first) (olast - ofirst)) =
      rangeVals srt 0 (min (last - first) (olast - ofirst)) := by
    apply rangeVals_shift_eq
    · omega
    · intro t ht
      exact c4 (by omega) t (by omega)
  refine ⟨?_, ?_, ?_, ?_, ?_, ?_⟩
  · rw [hpos]
    exact c1
  · rw [hout]
    exact c2
  · intro k hk
    rw [hout]
    exact c3 k hk
  · rw [hout]
    intro k hk1 hk2
    have e1 := c4 (by omega) (k + 1 - ofirst) (by omega)
    have e2 := c4 (by omega) (k - ofirst) (by omega)
    rw [show ofirst + (k + 1 - ofirst) = k + 1 by omega] at e1
    rw [show ofirst + (k - ofirst) = k by omega] at e2
    rw [e1, e2]
    have hadj := w4' (k - ofirst) (Nat.zero_le _) (by omega)
    rw [show (0 : Nat) + (k + 1 - ofirst) = k - ofirst + 1 by omega,
      show (0 : Nat) + (k - ofirst) = k - ofirst by omega]
    exact hadj
  · rw [hout]
    refine ⟨rangeVals srt (min (last - first) (olast - ofirst)) (last - first), ?_, ?_⟩
    · rw [hseg, ← rangeVals_split srt 0 (min (last - first) (olast - ofirst))
        (last - first) (by omega) (by omega)]
      exact w3'
    · intro x hx y hy
      rw [hseg] at hx
      obtain ⟨p, hp0, hpm, hxv⟩ := of_mem_rangeVals srt 0
        (min (last - first) (olast - ofirst)) x hx
      obtain ⟨q, hq1, hq2, hyv⟩ := of_mem_rangeVals srt
        (min (last - first) (olast - ofirst)) (last - first) y hy
      rw [hxv, hyv]
      exact sortedRange_pairwise comp hswo.2.2 srt 0 (last - first) w4' (last - first)
        p q (by omega) (by omega) (by omega) hq2
  · intro hc
    have hm0 : min (last - first) (olast - ofirst) = 0 := by rcases hc with h | h <;> omega
    have hcr : copyRange srt 0 (min (last - first) (olast - ofirst)) out ofirst =
        (out, ofirst) := by
      rw [hm0, copyRange, if_neg (by omega)]
    exact ⟨by rw [hout, hcr], by rw [hpos, hcr]⟩

/-- Witness for C5: six input values copied into a capacity-three output. -/
theorem partial_sort_copy_writes_witness :
    IsSWO less ∧ (0 : Nat) ≤ 6 ∧ 6 ≤ ([5, 3, 8, 1, 9, 2] : List Nat).length ∧
    (0 : Nat) ≤ 3 ∧ 3 ≤ ([0, 0, 0] : List Nat).length ∧
    ((partial_sort_copy less [5, 3, 8, 1, 9, 2] 0 6 [0, 0, 0] 0 3).2.2 =
      0 + min (6 - 0) (3 - 0) ∧
    (partial_sort_copy less [5, 3, 8, 1, 9, 2] 0 6 [0, 0, 0] 0 3).2.1.length =
      ([0, 0, 0] : List Nat).length ∧
    (∀ k, k < 0 ∨ 0 + min (6 - 0) (3 - 0) ≤ k →
      getv (partial_sort_copy less [5, 3, 8, 1, 9, 2] 0 6 [0, 0, 0] 0 3).2.1 k =
        getv [0, 0, 0] k) ∧
    sortedRange less (partial_sort_copy less [5, 3, 8, 1, 9, 2] 0 6 [0, 0, 0] 0 3).2.1
      0 (0 + min (6 - 0) (3 - 0)) ∧
    (∃ rest : List Nat,
      List.Perm
        (rangeVals (partial_sort_copy less [5, 3, 8, 1, 9, 2] 0 6 [0, 0, 0] 0 3).2.1
          0 (0 + min (6 - 0) (3 - 0)) ++ rest)
        (rangeVals [5, 3, 8, 1, 9, 2] 0 6) ∧
      ∀ x ∈ rangeVals (partial_sort_copy less [5, 3, 8, 1, 9, 2] 0 6 [0, 0, 0] 0 3).2.1
          0 (0 + min (6 - 0) (3 - 0)),
        ∀ y ∈ rest, less y x = false) ∧
    (((0 : Nat) = 6 ∨ (0 : Nat) = 3) →
      (partial_sort_copy less [5, 3, 8, 1, 9, 2] 0 6 [0, 0, 0] 0 3).2.1 = [0, 0, 0] ∧
      (partial_sort_copy less [5, 3, 8, 1, 9, 2] 0 6 [0, 0, 0] 0 3).2.2 = 0)) :=
  ⟨less_isSWO, by decide, by decide, by decide, by decide,
    partial_sort_copy_writes less less_isSWO [5, 3, 8, 1, 9, 2] 0 6 [0, 0, 0] 0 3
      (by decide) (by decide) (by decide) (by decide)⟩

/-- C6: `partial_sort_copy` leaves every value of the input range unchanged:
the source reads the input into a scratch `Vector`, sorts the copy, and
writes only through the output iterators, so in the state-passing embedding
the input store passes through the call unmodified. -/
theorem partial_sort_copy_input_unchanged (comp : α → α → Bool) (l : List α)
    (first last : Nat) (out : List α) (ofirst olast : Nat) :
    (partial_sort_copy comp l first last out ofirst olast).1 = l ∧
    ∀ k, getv (partial_sort_copy comp l first last out ofirst olast).1 k = getv l k :=
  ⟨rfl, fun _ => rfl⟩

end Sorting
